import Mathlib

/-!
Verification of the astrolabe graph-visualizer backend core
(`astrolabe/project.py`, `astrolabe/graph_cache.py`, and the
`UnifiedStorage` overlay layer) against its natural-language
specification.

The Python code is shallowly embedded: dataclasses become structures,
JSON dictionaries become records or association lists, the filesystem
becomes explicit `Option`-valued file contents, and Python floats that
are only carried through (never computed with) become rationals.
-/

namespace Astrolabe

/-- `ProofStatus` from `models/node.py`.  The constructor `sorryStatus`
embeds the Python member `SORRY`, `errorStatus` embeds `ERROR`. -/
inductive ProofStatus where
  | proven
  | sorryStatus
  | errorStatus
  | unknown
deriving DecidableEq, Repr

/-- `NodeMeta` from `models/node.py`: user-editable node properties. -/
structure NodeMeta where
  label : Option String := none
  size : Option ℚ := none
  shape : Option String := none
  effect : Option String := none
  pinned : Bool := false
  notes : Option String := none
  tags : List String := []
deriving DecidableEq, Repr

/-- `Node` from `models/node.py`.  `fullContent` embeds the private
`_full_content` field; stat fields default to 0 as in the dataclass. -/
structure Node where
  id : String
  name : String
  kind : String
  filePath : String
  lineNumber : Int
  status : ProofStatus := .unknown
  references : List String := []
  dependsOnCount : Nat := 0
  usedByCount : Nat := 0
  depth : Nat := 0
  defaultColor : String := "#888888"
  defaultSize : ℚ := 1
  defaultShape : String := "sphere"
  fullContent : String := ""
  meta : NodeMeta := {}
deriving DecidableEq, Repr

/-- `EdgeMeta` from `models/edge.py`. -/
structure EdgeMeta where
  style : Option String := none
  effect : Option String := none
  notes : Option String := none
deriving DecidableEq, Repr

/-- `Edge` from `models/edge.py`.  The field `leanSourced` embeds the
Python field `from_lean` (true = structural edge derived from source). -/
structure Edge where
  source : String
  target : String
  leanSourced : Bool := true
  visible : Bool := true
  defaultColor : String := "#2ecc71"
  defaultWidth : ℚ := 1
  defaultStyle : String := "solid"
  meta : EdgeMeta := {}
deriving DecidableEq, Repr

/-- Edge identity `source + "->" + target` (`Edge.id` in `models/edge.py`). -/
def Edge.id (e : Edge) : String := e.source ++ "->" ++ e.target

/-! ## Dependency statistics (`Project._compute_node_stats`)

The statistics pass first resets every node's counters, then builds
`depends_on` from the edges whose two endpoints are both present, and
finally runs a memoized, cycle-guarded recursive depth computation.
-/

/-- The dependency list `depends_on[id]` built by `_compute_node_stats`:
targets of the edges with source `id` whose endpoints are both node ids.
For an id that is not a node id this is `[]`, matching
`depends_on.get(node_id, [])`. -/
def dependsOnMap (ids : List String) (edges : List Edge) (id : String) : List String :=
  (edges.filter (fun e => e.source == id && ids.contains e.source && ids.contains e.target)).map
    (fun e => e.target)

/-- Out-degree on recognized edges: the value `_compute_node_stats`
accumulates into `depends_on_count` for node `id`. -/
def outDegree (ids : List String) (edges : List Edge) (id : String) : Nat :=
  (dependsOnMap ids edges id).length

/-- In-degree on recognized edges: the value `_compute_node_stats`
accumulates into `used_by_count` for node `id`. -/
def inDegree (ids : List String) (edges : List Edge) (id : String) : Nat :=
  (edges.filter (fun e => e.target == id && ids.contains e.source && ids.contains e.target)).length

/-- The global memo `computed_depth` of `compute_depth`, as an
association list (later entries are older). -/
abbrev Memo := List (String × Nat)

/-- The fold over a node's dependency list inside `compute_depth`:
`max(compute_depth(dep, visited.copy()) for dep in deps)`, with the memo
threaded left to right through the sibling calls.  `none` propagates
fuel exhaustion. -/
def foldDeps (f : Memo → String → Option (Nat × Memo)) :
    List String → Nat → Memo → Option (Nat × Memo)
  | [], m, memo => some (m, memo)
  | d :: ds, m, memo =>
    match f memo d with
    | none => none
    | some (dd, memo') => foldDeps f ds (max m dd) memo'

/-- `compute_depth(node_id, visited)` from `_compute_node_stats`,
with explicit fuel standing in for Python's unbounded recursion:
memo hit first, then the ancestor-path cycle guard returning 0, then the
leaf case, then `1 + max` over the dependencies (each sibling receives a
copy of the current visited set, i.e. the same `id :: visited`). -/
def computeDepth (dep : String → List String) :
    Nat → Memo → List String → String → Option (Nat × Memo)
  | 0, _, _, _ => none
  | fuel + 1, memo, visited, id =>
    match memo.lookup id with
    | some d => some (d, memo)
    | none =>
      if id ∈ visited then some (0, memo)
      else
        match dep id with
        | [] => some (0, (id, 0) :: memo)
        | d :: ds =>
          match foldDeps (fun mo x => computeDepth dep fuel mo (id :: visited) x) (d :: ds) 0 memo with
          | none => none
          | some (m, memo') => some (m + 1, (id, m + 1) :: memo')

/-- The driver loop `for node_id in self.nodes:
`self.nodes[node_id].depth = compute_depth(node_id, set())`, threading
the shared memo and recording each returned value. -/
def computeAllDepths (dep : String → List String) (fuel : Nat) :
    List String → Memo → Option (List (String × Nat))
  | [], _ => some []
  | id :: rest, memo =>
    match computeDepth dep fuel memo [] id with
    | none => none
    | some (d, memo') =>
      match computeAllDepths dep fuel rest memo' with
      | none => none
      | some l => some ((id, d) :: l)

/-- `Project._compute_node_stats`: resets and recomputes
`depends_on_count`, `used_by_count` and `depth` of every node.  `none`
would mean the fuel `ids.length + 1` is insufficient (proved below never
to happen). -/
def computeNodeStats (nodes : List Node) (edges : List Edge) : Option (List Node) :=
  let ids := nodes.map (fun n => n.id)
  match computeAllDepths (dependsOnMap ids edges) (ids.length + 1) ids [] with
  | none => none
  | some depths =>
    some (nodes.map (fun n =>
      { n with
        dependsOnCount := outDegree ids edges n.id
        usedByCount := inDegree ids edges n.id
        depth := (depths.lookup n.id).getD 0 }))

/-- Depth of the node called `id` in a stats result (0 when absent),
used to observe `computeNodeStats` outputs. -/
def depthOf (nodes : List Node) (id : String) : Nat :=
  match nodes.find? (fun n => n.id == id) with
  | some n => n.depth
  | none => 0

/-- Number of ids not yet on the ancestor path: the measure that shrinks
at every nested `compute_depth` call. -/
def remCount (ids visited : List String) : Nat :=
  (ids.filter (fun x => !visited.contains x)).length

/-- The reference depth function of the specification, by fuel:
0 for a leaf, otherwise one more than the maximum over the dependencies.
On an acyclic graph it stabilizes once the fuel exceeds the node's rank. -/
def specDepthF (dep : String → List String) : Nat → String → Nat
  | 0, _ => 0
  | fuel + 1, id =>
    match dep id with
    | [] => 0
    | d :: ds => ((d :: ds).map (specDepthF dep fuel)).foldl max 0 + 1

/-- Acyclicity of the recognized dependency graph, phrased as the
existence property used below: a rank function decreasing along every
recognized dependency.  A finite graph admits such a rank exactly when
it has no directed cycle. -/
abbrev RankOK (ids : List String) (edges : List Edge) (rank : String → Nat) : Prop :=
  ∀ id ∈ ids, ∀ x ∈ dependsOnMap ids edges id, rank x < rank id

/-- Every memo entry holds the canonical depth value. -/
def MemoOK (c : String → Nat) (memo : Memo) : Prop :=
  ∀ x d, memo.lookup x = some d → d = c x

/-- The canonical depth of a node on an acyclic graph: the reference
depth function evaluated with just enough fuel for this node's rank. -/
def cdepth (dep : String → List String) (rank : String → Nat) (id : String) : Nat :=
  specDepthF dep (rank id + 1) id

/-- The per-node stats update performed by `_compute_node_stats`: sets
the two degree counters and a depth given by `c` on the node's id,
leaving every other field unchanged. -/
def statApply (ids : List String) (edges : List Edge) (c : String → Nat) (n : Node) : Node :=
  { n with
    dependsOnCount := outDegree ids edges n.id
    usedByCount := inDegree ids edges n.id
    depth := c n.id }

/-- A minimal declaration node used by the concrete instances below. -/
def mkNode (id : String) : Node :=
  { id := id, name := id, kind := "theorem", filePath := "/test/File.lean", lineNumber := 1 }

/-- Two nodes `A`, `B` in dictionary iteration order `[A, B]`. -/
def cycNodes : List Node := [mkNode "A", mkNode "B"]

/-- The same two nodes in the opposite iteration order. -/
def cycNodesRev : List Node := [mkNode "B", mkNode "A"]

/-- The two-edge cycle `A→B` and `B→A`. -/
def cycEdges : List Edge :=
  [{ source := "A", target := "B" }, { source := "B", target := "A" }]

/-- Nodes `A`, `B`, `C` of the specification's worked example. -/
def abcNodes : List Node := [mkNode "A", mkNode "B", mkNode "C"]

/-- `B` depends on `A` and `C` depends on `B`: edge source depends on
edge target in `_compute_node_stats`. -/
def abcEdges : List Edge :=
  [{ source := "B", target := "A" }, { source := "C", target := "B" }]

/-- A topological rank for the worked example. -/
def abcRank : String → Nat := fun s => if s == "C" then 2 else if s == "B" then 1 else 0

/-- Statistics triple `(depends_on_count, used_by_count, depth)` of the
node called `id` in a stats result. -/
def statsOf (nodes : List Node) (id : String) : Option (Nat × Nat × Nat) :=
  (nodes.find? (fun n => n.id == id)).map (fun n => (n.dependsOnCount, n.usedByCount, n.depth))

/-- The two degree counters of the node called `id` in a stats result. -/
def countsOf (nodes : List Node) (id : String) : Option (Nat × Nat) :=
  (nodes.find? (fun n => n.id == id)).map (fun n => (n.dependsOnCount, n.usedByCount))

/-! ## Graph cache (`graph_cache.py`) -/

/-- `CACHE_VERSION` in `graph_cache.py`. -/
def CACHE_VERSION : String := "1.0"

/-- A node entry of the persisted `graph.json` snapshot, exactly the
fields `GraphCache.save` writes (no status, no content, no meta). -/
structure SnapshotNode where
  id : String
  name : String
  kind : String
  filePath : String
  lineNumber : Int
  references : List String
  dependsOnCount : Nat
  usedByCount : Nat
  depth : Nat
  defaultColor : String
  defaultSize : ℚ
  defaultShape : String
deriving DecidableEq, Repr

/-- An edge entry of the snapshot; `leanSourced` embeds `from_lean`. -/
structure SnapshotEdge where
  source : String
  target : String
  leanSourced : Bool
  defaultColor : String
  defaultWidth : ℚ
  defaultStyle : String
deriving DecidableEq, Repr

/-- The persisted snapshot `{version, generated_at, ilean_hash, nodes, edges}`. -/
structure Snapshot where
  version : String
  generatedAt : String
  ileanHash : String
  nodes : List SnapshotNode
  edges : List SnapshotEdge
deriving DecidableEq, Repr

/-- `GraphCache.compute_ilean_hash`, over the list of per-file stat
strings `path:mtime:size` of the project's own tracked `.ilean`
artifacts (`[]` both when the build directory is missing and when it
holds no such file).  The md5 hex digest is modelled as the tag `"md5:"`
followed by the concatenated input; the development relies only on the
digest of a nonempty input being a nonempty string, which holds for the
real 32-hex-character digest. -/
def computeIleanHash (artifactStats : List String) : String :=
  if artifactStats.isEmpty then "" else "md5:" ++ String.join artifactStats

/-- `GraphCache.save`: builds the versioned snapshot from the in-memory
nodes and edges, recording the current artifact hash and generation
time, and excluding proof status, source content and meta. -/
def saveSnapshot (nodes : List Node) (edges : List Edge)
    (currentHash generatedAt : String) : Snapshot :=
  { version := CACHE_VERSION
    generatedAt := generatedAt
    ileanHash := currentHash
    nodes := nodes.map (fun n =>
      { id := n.id, name := n.name, kind := n.kind, filePath := n.filePath
        lineNumber := n.lineNumber, references := n.references
        dependsOnCount := n.dependsOnCount, usedByCount := n.usedByCount
        depth := n.depth, defaultColor := n.defaultColor
        defaultSize := n.defaultSize, defaultShape := n.defaultShape })
    edges := edges.map (fun e =>
      { source := e.source, target := e.target, leanSourced := e.leanSourced
        defaultColor := e.defaultColor, defaultWidth := e.defaultWidth
        defaultStyle := e.defaultStyle }) }

/-- `GraphCache.is_valid`: a snapshot file exists (`some`, where `none`
models both a missing and an unparsable file), its version matches
`CACHE_VERSION`, and its stored hash equals the current hash. -/
def isValidSnapshot (file : Option Snapshot) (currentHash : String) : Bool :=
  match file with
  | none => false
  | some s => s.version == CACHE_VERSION && s.ileanHash == currentHash

/-- `GraphCache.load`: `none` unless `is_valid`; otherwise rebuilds the
nodes with proof status reset to UNKNOWN and content/meta left at their
defaults, and the edges with `visible`/meta at their defaults. -/
def loadSnapshot (file : Option Snapshot) (currentHash : String) :
    Option (List Node × List Edge) :=
  if isValidSnapshot file currentHash then
    match file with
    | none => none
    | some s =>
      some (s.nodes.map (fun n =>
        { id := n.id, name := n.name, kind := n.kind, filePath := n.filePath
          lineNumber := n.lineNumber, status := ProofStatus.unknown
          references := n.references, dependsOnCount := n.dependsOnCount
          usedByCount := n.usedByCount, depth := n.depth
          defaultColor := n.defaultColor, defaultSize := n.defaultSize
          defaultShape := n.defaultShape }),
        s.edges.map (fun e =>
        { source := e.source, target := e.target, leanSourced := e.leanSourced
          defaultColor := e.defaultColor, defaultWidth := e.defaultWidth
          defaultStyle := e.defaultStyle }))
  else none

/-- What a save/load round trip does to a node: every structural field
survives, while the ephemeral fields (proof status, content, meta) are
reset to their defaults. -/
def cacheNodeRoundTrip (n : Node) : Node :=
  { n with status := ProofStatus.unknown, fullContent := "", meta := {} }

/-- What a save/load round trip does to an edge: structural fields and
default styles survive; `visible` and meta come back as defaults. -/
def cacheEdgeRoundTrip (e : Edge) : Edge :=
  { e with visible := true, meta := {} }

/-- A stored node position in the legacy position bucket of
`graph.json`: exactly the keys `x` and `y`. -/
structure StoredPos where
  x : ℚ
  y : ℚ
deriving DecidableEq, Repr

/-- An entry of the map passed to `update_positions`: the code reads the
components `x` and `y` with `pos.get(_, 0)` and never reads any other
component, modelled by an explicit discarded `z?`. -/
structure InputPos where
  x? : Option ℚ := none
  y? : Option ℚ := none
  z? : Option ℚ := none
deriving DecidableEq, Repr

/-- Python dict assignment `m[k] = v` on an insertion-ordered dict as an
association list: replace in place when the key exists, append otherwise. -/
def dictInsert {β : Type} (m : List (String × β)) (k : String) (v : β) :
    List (String × β) :=
  if m.any (fun p => p.1 == k) then m.map (fun p => if p.1 == k then (k, v) else p)
  else m ++ [(k, v)]

/-- `GraphCache.update_positions`: returns immediately on an empty map;
otherwise read-modify-writes the `positions` bucket of the cache file
(a missing or unparsable file reads as `{}`, modelled by `none`),
storing for each input key exactly `x` and `y` with 0 defaults and
discarding every other component.  Only the positions bucket is
modelled; the other keys of the JSON object are not observed by the
claims. -/
def updatePositions (positions : List (String × InputPos))
    (file : Option (List (String × StoredPos))) : Option (List (String × StoredPos)) :=
  if positions.isEmpty then file
  else some (positions.foldl
    (fun m kp => dictInsert m kp.1 { x := kp.2.x?.getD 0, y := kp.2.y?.getD 0 })
    (file.getD []))

/-- `GraphCache.get_positions`: the stored bucket, `{}` when the file is
missing or unparsable. -/
def getPositions (file : Option (List (String × StoredPos))) : List (String × StoredPos) :=
  file.getD []

/-! ## Cache-loading id disambiguation (`Project._load_from_cache`) -/

/-- The id `_load_from_cache` assigns a declaration given the ids
already present: on a collision, append `@stem` where `stem` models
`Path(file_path).stem`. -/
def assignId (stem : String → String) (seen : List String) (n : Node) : String :=
  if seen.contains n.id then n.id ++ "@" ++ stem n.filePath else n.id

/-- The node-insertion loop of `_load_from_cache`: store each parsed
declaration under its id, and on an id collision store the later
occurrence under the disambiguated id. -/
def loadFromCacheAux (stem : String → String) :
    List Node → List (String × Node) → List (String × Node)
  | [], store => store
  | n :: rest, store =>
    let newId := assignId stem (store.map Prod.fst) n
    loadFromCacheAux stem rest (dictInsert store newId { n with id := newId })

/-- `_load_from_cache` starting from the cleared `self.nodes` dict. -/
def loadFromCache (stem : String → String) (decls : List Node) : List (String × Node) :=
  loadFromCacheAux stem decls []

/-- The id assigned to each declaration by the loop, computed from the
ids already seen. -/
def candIdsAux (stem : String → String) : List Node → List String → List String
  | [], _ => []
  | n :: rest, seen =>
    let newId := assignId stem seen n
    newId :: candIdsAux stem rest (newId :: seen)

/-- The ids assigned by a full load pass. -/
def candIds (stem : String → String) (decls : List Node) : List String :=
  candIdsAux stem decls []

/-- The stem function for the concrete test path `/test/File.lean`. -/
def stemFn : String → String := fun _ => "File"

/-- Three distinct declarations sharing the structural id `foo` and the
same source file. -/
def tripleDecls : List Node :=
  [mkNode "foo", { mkNode "foo" with name := "foo2" }, { mkNode "foo" with name := "foo3" }]

/-! ## UnifiedStorage overlay (modelled from the spec)

`unified_storage.py` itself is not among the provided sources (only its
tests and callers are), so the overlay store is modelled from the
specification, sections 4.3 and 6.
-/

/-- A node position in the overlay canvas bucket `{x, y, z}`. -/
structure CanvasPos where
  x : ℚ
  y : ℚ
  z : ℚ
deriving DecidableEq, Repr

/-- The viewport record of the overlay/legacy canvas. -/
structure Viewport where
  cameraPos : List ℚ
  cameraTarget : List ℚ
  zoom : ℚ
  selectedNodeId : Option String
  selectedEdgeId : Option String
deriving DecidableEq, Repr

/-- Modelled from the spec: a node overlay entry — sparse user-editable
meta fields plus the `visible` flag (section 3). -/
structure NodeOverlay where
  visible : Option Bool := none
  label : Option String := none
  size : Option ℚ := none
  shape : Option String := none
  effect : Option String := none
  pinned : Option Bool := none
  notes : Option String := none
  tags : List String := []
deriving DecidableEq, Repr

/-- Modelled from the spec: an edge overlay entry — sparse meta fields
plus the user-authored discriminator the spec requires `is_user_edge` to
classify by ("classify by stored discriminator, not by string-pattern
guessing", section 4.3). -/
structure EdgeOverlay where
  isUser : Bool := false
  style : Option String := none
  effect : Option String := none
  notes : Option String := none
deriving DecidableEq, Repr

/-- The canvas bucket of the overlay store. -/
structure CanvasBucket where
  positions : List (String × CanvasPos) := []
  viewport : Option Viewport := none
deriving DecidableEq, Repr

/-- Modelled from the spec: the persisted overlay store
`{nodes: {...}, edges: {...}, canvas: {...}}` (section 6). -/
structure Overlay where
  nodes : List (String × NodeOverlay) := []
  edges : List (String × EdgeOverlay) := []
  canvas : CanvasBucket := {}
deriving DecidableEq, Repr

/-- The legacy `canvas.json` format
`{version, visible_nodes, positions, viewport}` (section 6). -/
structure LegacyCanvas where
  visibleNodes : List String
  positions : List (String × CanvasPos)
  viewport : Option Viewport
deriving DecidableEq, Repr

/-- Modelled from the spec: the `UnifiedStorage` state — the read-only
structural skeleton supplied at construction plus the mutable overlay. -/
structure UnifiedStorage where
  skeletonNodeIds : List String
  skeletonEdgeIds : List String
  overlay : Overlay
deriving DecidableEq, Repr

/-- Modelled from the spec: whether the overlay already holds
canvas/visibility data (the migration guard of section 4.3 step 2). -/
def hasCanvasData (ov : Overlay) : Bool :=
  !ov.canvas.positions.isEmpty || !(ov.canvas.viewport == none) ||
    ov.nodes.any (fun p => p.2.visible == some true)

/-- Modelled from the spec: set `visible = true` on the overlay entry
for `id`, creating the entry when absent. -/
def setVisibleTrue (nodes : List (String × NodeOverlay)) (id : String) :
    List (String × NodeOverlay) :=
  if nodes.any (fun p => p.1 == id) then
    nodes.map (fun p => if p.1 == id then (p.1, { p.2 with visible := some true }) else p)
  else nodes ++ [(id, { visible := some true })]

/-- Modelled from the spec: the one-time legacy-canvas migration of
section 4.3 step 2 — if the overlay has no canvas/visibility data and a
legacy canvas file is reachable and parses (`some`), its `visible_nodes`
become `visible = true` entries and its positions and viewport are
copied verbatim; otherwise the overlay is kept unchanged. -/
def migrateLegacy (ov : Overlay) (legacy : Option LegacyCanvas) : Overlay :=
  if hasCanvasData ov then ov
  else
    match legacy with
    | none => ov
    | some lc =>
      { ov with
        nodes := lc.visibleNodes.foldl setVisibleTrue ov.nodes
        canvas := { positions := lc.positions, viewport := lc.viewport } }

/-- Modelled from the spec: `UnifiedStorage` construction — parse the
overlay file (`none` models a missing or unparsable file, which falls
back to the empty overlay), then run the legacy migration. -/
def mkUnifiedStorage (skeletonNodeIds skeletonEdgeIds : List String)
    (overlayFile : Option Overlay) (legacy : Option LegacyCanvas) : UnifiedStorage :=
  { skeletonNodeIds := skeletonNodeIds
    skeletonEdgeIds := skeletonEdgeIds
    overlay := migrateLegacy (overlayFile.getD {}) legacy }

/-- The assembled canvas view `{visible_nodes, positions, viewport}`
returned by `get_canvas`, with the viewport defaults of section 4.3. -/
structure CanvasView where
  visibleNodes : List String
  positions : List (String × CanvasPos)
  viewport : Viewport
deriving DecidableEq, Repr

/-- Modelled from the spec: the default viewport
(`camera_position=[0,0,20]`, `camera_target=[0,0,0]`, `zoom=1.0`,
selections unset). -/
def defaultViewport : Viewport :=
  { cameraPos := [0, 0, 20], cameraTarget := [0, 0, 0], zoom := 1
    selectedNodeId := none, selectedEdgeId := none }

/-- Modelled from the spec: `get_canvas()` — the ids whose overlay entry
has `visible = true`, the canvas positions, and the viewport with every
missing field defaulted. -/
def getCanvas (s : UnifiedStorage) : CanvasView :=
  { visibleNodes := (s.overlay.nodes.filter (fun p => p.2.visible == some true)).map Prod.fst
    positions := s.overlay.canvas.positions
    viewport := s.overlay.canvas.viewport.getD defaultViewport }

/-- Modelled from the spec: `is_user_edge(id)` — classify by the stored
discriminator. -/
def isUserEdge (s : UnifiedStorage) (id : String) : Bool :=
  match s.overlay.edges.lookup id with
  | some e => e.isUser
  | none => false

/-- Remove the overlay entry for `id` entirely. -/
def eraseEdgeEntry (edges : List (String × EdgeOverlay)) (id : String) :
    List (String × EdgeOverlay) :=
  edges.filter (fun p => !(p.1 == id))

/-- Modelled from the spec: `delete_edge(id)` — succeeds only for
user-authored edges, removing the stored entry entirely; for a
Lean-sourced edge it fails with `InvalidOperation` (section 4.3). -/
def deleteEdge (s : UnifiedStorage) (id : String) : Except String UnifiedStorage :=
  if isUserEdge s id then
    Except.ok { s with overlay := { s.overlay with edges := eraseEdgeEntry s.overlay.edges id } }
  else Except.error "InvalidOperation: structural edges cannot be deleted"

/-- A concrete overlay with existing canvas data, mirroring the fixture
of `test_migrate_already_migrated`. -/
def overlayWithCanvas : Overlay :=
  { nodes := [("Module.theorem1", { visible := some true })]
    edges := []
    canvas := { positions := [("Module.theorem1", { x := 100, y := 200, z := 300 })]
                viewport := some { cameraPos := [1, 1, 1], cameraTarget := [0, 0, 0]
                                   zoom := 1, selectedNodeId := none, selectedEdgeId := none } } }

/-- The legacy canvas file of the same fixture, holding different data. -/
def legacyCanvasFixture : LegacyCanvas :=
  { visibleNodes := ["Module.theorem2"]
    positions := [("Module.theorem2", { x := 0, y := 0, z := 0 })]
    viewport := some { cameraPos := [0, 0, 0], cameraTarget := [0, 0, 0]
                       zoom := 1, selectedNodeId := none, selectedEdgeId := none } }

/-- A concrete store holding one user-authored edge `U->V` and one
structural edge `A->B` that carries a meta overlay entry. -/
def storageFixture : UnifiedStorage :=
  { skeletonNodeIds := ["A", "B"]
    skeletonEdgeIds := ["A->B"]
    overlay :=
      { nodes := []
        edges := [("U->V", { isUser := true }),
                  ("A->B", { isUser := false, style := some "dashed" })]
        canvas := {} } }

end Astrolabe

namespace Astrolabe

lemma contains_iff_mem (l : List String) (x : String) : l.contains x = true ↔ x ∈ l := by
  simp [List.contains, List.elem_iff]

lemma dependsOnMap_subset (ids : List String) (edges : List Edge) (id x : String)
    (hx : x ∈ dependsOnMap ids edges id) : x ∈ ids := by
  simp only [dependsOnMap, List.mem_map, List.mem_filter] at hx
  obtain ⟨e, ⟨_, he⟩, rfl⟩ := hx
  simp only [Bool.and_eq_true] at he
  exact (contains_iff_mem ids e.target).mp he.2

lemma dependsOnMap_not_mem (ids : List String) (edges : List Edge) (id : String)
    (h : id ∉ ids) : dependsOnMap ids edges id = [] := by
  simp only [dependsOnMap, List.map_eq_nil_iff, List.filter_eq_nil_iff]
  intro e _ hcond
  simp only [Bool.and_eq_true, beq_iff_eq] at hcond
  exact h (hcond.1.1 ▸ (contains_iff_mem ids e.source).mp hcond.1.2)

lemma remCount_nil (ids : List String) : remCount ids [] = ids.length := by
  simp [remCount]

lemma remCount_cons_lt (ids visited : List String) (id : String)
    (hid : id ∈ ids) (hv : id ∉ visited) :
    remCount ids (id :: visited) < remCount ids visited := by
  induction ids with
  | nil => cases hid
  | cons x xs ih =>
    by_cases hx : x = id
    · subst hx
      have h1 : (x :: visited).contains x = true := by
        simp [contains_iff_mem]
      have h2 : visited.contains x = false := by
        simp only [Bool.eq_false_iff, ne_eq]
        intro hc
        exact hv ((contains_iff_mem _ _).mp hc)
      simp only [remCount, List.filter_cons, h1, h2, Bool.not_true, Bool.not_false]
      have hle : ((xs.filter (fun y => !(x :: visited).contains y)).length) ≤
          ((xs.filter (fun y => !visited.contains y)).length) := by
        have hsub : ∀ y ∈ xs, (!(x :: visited).contains y) = true →
            (!visited.contains y) = true := by
          intro y _ hy
          simp only [Bool.not_eq_true'] at hy ⊢
          simp only [Bool.eq_false_iff, ne_eq] at hy ⊢
          intro hc
          exact hy (by
            have : y ∈ x :: visited := .tail _ ((contains_iff_mem _ _).mp hc)
            exact (contains_iff_mem _ _).mpr this)
        calc (xs.filter (fun y => !(x :: visited).contains y)).length
            = xs.countP (fun y => !(x :: visited).contains y) := by
              simp [List.countP_eq_length_filter]
          _ ≤ xs.countP (fun y => !visited.contains y) := List.countP_mono_left hsub
          _ = (xs.filter (fun y => !visited.contains y)).length := by
              simp [List.countP_eq_length_filter]
      exact Nat.lt_succ_of_le hle
    · have hid' : id ∈ xs := by
        cases hid with
        | head => exact absurd rfl hx
        | tail _ h => exact h
      have hmain := ih hid'
      by_cases hxv : x ∈ visited
      · have h1 : ((id :: visited).contains x) = true := by
          simp only [contains_iff_mem]
          exact .tail _ hxv
        have h2 : (visited.contains x) = true := (contains_iff_mem _ _).mpr hxv
        simp only [remCount, List.filter_cons, h1, h2, Bool.not_true] at hmain ⊢
        exact hmain
      · have h1 : ((id :: visited).contains x) = false := by
          simp only [Bool.eq_false_iff, ne_eq, contains_iff_mem]
          intro hc
          cases hc with
          | head => exact hx rfl
          | tail _ h => exact hxv h
        have h2 : (visited.contains x) = false := by
          simp only [Bool.eq_false_iff, ne_eq, contains_iff_mem]
          exact hxv
        simp only [remCount, List.filter_cons, h1, h2, Bool.not_false, List.length_cons] at hmain ⊢
        exact Nat.succ_lt_succ hmain

lemma foldDeps_isSome (f : Memo → String → Option (Nat × Memo)) (ds : List String)
    (hf : ∀ mo x, x ∈ ds → (f mo x).isSome) :
    ∀ m memo, (foldDeps f ds m memo).isSome := by
  induction ds with
  | nil => intro m memo; simp [foldDeps]
  | cons d ds ih =>
    intro m memo
    have h := hf memo d (.head _)
    match hfd : f memo d with
    | none => rw [hfd] at h; simp at h
    | some (dd, memo') =>
      simp only [foldDeps, hfd]
      exact ih (fun mo x hx => hf mo x (.tail _ hx)) (max m dd) memo'

lemma computeDepth_isSome (dep : String → List String) (ids : List String)
    (closed : ∀ x y, y ∈ dep x → y ∈ ids) :
    ∀ fuel memo visited id, id ∈ ids → remCount ids visited < fuel →
      (computeDepth dep fuel memo visited id).isSome := by
  intro fuel
  induction fuel with
  | zero => intro _ _ _ _ hlt; exact absurd hlt (Nat.not_lt_zero _)
  | succ fuel ih =>
    intro memo visited id hid hlt
    simp only [computeDepth]
    match memo.lookup id with
    | some d => simp
    | none =>
      simp only
      by_cases hv : id ∈ visited
      · simp [hv]
      · simp only [hv, if_neg, ite_false]
        match hd : dep id with
        | [] => simp
        | d :: ds =>
          have hrec : remCount ids (id :: visited) < fuel := by
            have h1 := remCount_cons_lt ids visited id hid hv
            omega
          have hfold := foldDeps_isSome
            (fun mo x => computeDepth dep fuel mo (id :: visited) x) (d :: ds)
            (fun mo x hx => ih mo (id :: visited) x (closed id x (hd ▸ hx)) hrec) 0 memo
          match hres : foldDeps (fun mo x => computeDepth dep fuel mo (id :: visited) x)
              (d :: ds) 0 memo with
          | none => rw [hres] at hfold; simp at hfold
          | some (m, memo') => simp [hres]

lemma computeAllDepths_isSome (dep : String → List String) (ids : List String)
    (closed : ∀ x y, y ∈ dep x → y ∈ ids) (fuel : Nat) (hfuel : ids.length < fuel) :
    ∀ toGo memo, (∀ i ∈ toGo, i ∈ ids) →
      (computeAllDepths dep fuel toGo memo).isSome := by
  intro toGo
  induction toGo with
  | nil => intro memo _; simp [computeAllDepths]
  | cons id rest ih =>
    intro memo hin
    have h1 : (computeDepth dep fuel memo [] id).isSome := by
      apply computeDepth_isSome dep ids closed fuel memo [] id (hin id (.head _))
      rw [remCount_nil]; exact hfuel
    match hd : computeDepth dep fuel memo [] id with
    | none => rw [hd] at h1; simp at h1
    | some (d, memo') =>
      have h2 := ih memo' (fun i hi => hin i (.tail _ hi))
      simp only [computeAllDepths, hd]
      match hrest : computeAllDepths dep fuel rest memo' with
      | none => rw [hrest] at h2; simp at h2
      | some l => simp

lemma specDepthF_stable (dep : String → List String) (rank : String → Nat)
    (hr : ∀ id x, x ∈ dep id → rank x < rank id) :
    ∀ n id f₁ f₂, rank id ≤ n → rank id < f₁ → rank id < f₂ →
      specDepthF dep f₁ id = specDepthF dep f₂ id := by
  intro n
  induction n with
  | zero =>
    intro id f₁ f₂ hn h1 h2
    cases f₁ with
    | zero => omega
    | succ g₁ =>
      cases f₂ with
      | zero => omega
      | succ g₂ =>
        simp only [specDepthF]
        cases hd : dep id with
        | nil => rfl
        | cons d ds =>
          have := hr id d (hd ▸ List.mem_cons_self d ds)
          omega
  | succ k ih =>
    intro id f₁ f₂ hn h1 h2
    cases f₁ with
    | zero => omega
    | succ g₁ =>
      cases f₂ with
      | zero => omega
      | succ g₂ =>
        simp only [specDepthF]
        cases hd : dep id with
        | nil => rfl
        | cons d ds =>
          have hmap : (d :: ds).map (specDepthF dep g₁) = (d :: ds).map (specDepthF dep g₂) := by
            apply List.map_congr_left
            intro x hx
            have hx' := hr id x (hd ▸ hx)
            exact ih x g₁ g₂ (by omega) (by omega) (by omega)
          simp only [hmap]

lemma cdepth_eq (dep : String → List String) (rank : String → Nat)
    (hr : ∀ id x, x ∈ dep id → rank x < rank id) (id : String) :
    cdepth dep rank id =
      match dep id with
      | [] => 0
      | d :: ds => ((d :: ds).map (cdepth dep rank)).foldl max 0 + 1 := by
  simp only [cdepth, specDepthF]
  cases hd : dep id with
  | nil => rfl
  | cons d ds =>
    have hmap : (d :: ds).map (specDepthF dep (rank id)) =
        (d :: ds).map (cdepth dep rank) := by
      apply List.map_congr_left
      intro x hx
      have hx' := hr id x (hd ▸ hx)
      exact specDepthF_stable dep rank hr (rank x) x (rank id) (rank x + 1)
        (Nat.le_refl _) hx' (Nat.lt_succ_self _)
    simp only [hmap]

lemma memoOK_cons (c : String → Nat) (memo : Memo) (id : String) (d : Nat)
    (hm : MemoOK c memo) (hd : d = c id) : MemoOK c ((id, d) :: memo) := by
  intro x v hx
  simp only [List.lookup] at hx
  cases hix : x == id with
  | true =>
    rw [hix] at hx
    simp only [Option.some.injEq] at hx
    rw [← hx, hd, beq_iff_eq.mp hix]
  | false =>
    rw [hix] at hx
    exact hm x v hx

lemma foldDeps_correct (c : String → Nat) (f : Memo → String → Option (Nat × Memo)) :
    ∀ ds : List String,
      (∀ mo x r, MemoOK c mo → x ∈ ds → f mo x = some r → r.1 = c x ∧ MemoOK c r.2) →
      ∀ m memo res, MemoOK c memo → foldDeps f ds m memo = some res →
        res.1 = (ds.map c).foldl max m ∧ MemoOK c res.2 := by
  intro ds
  induction ds with
  | nil =>
    intro _ m memo res hm hres
    simp only [foldDeps] at hres
    cases hres
    exact ⟨rfl, hm⟩
  | cons d ds ih =>
    intro hf m memo res hm hres
    simp only [foldDeps] at hres
    cases hfd : f memo d with
    | none => rw [hfd] at hres; cases hres
    | some r =>
      rw [hfd] at hres
      obtain ⟨h1, h2⟩ := hf memo d r hm (.head _) hfd
      have := ih (fun mo x q hmo hx hq => hf mo x q hmo (.tail _ hx) hq)
        (max m r.1) r.2 res h2 hres
      rw [h1] at this
      simpa using this

lemma computeDepth_correct (dep : String → List String) (rank : String → Nat)
    (hr : ∀ id x, x ∈ dep id → rank x < rank id) :
    ∀ fuel memo visited id res,
      MemoOK (cdepth dep rank) memo → (∀ x ∈ visited, rank id < rank x) →
      computeDepth dep fuel memo visited id = some res →
      res.1 = cdepth dep rank id ∧ MemoOK (cdepth dep rank) res.2 := by
  intro fuel
  induction fuel with
  | zero => intro memo visited id res _ _ hres; cases hres
  | succ fuel ih =>
    intro memo visited id res hm hvis hres
    simp only [computeDepth] at hres
    split at hres
    · rename_i d hlook
      cases hres
      exact ⟨hm id d hlook, hm⟩
    · rename_i hlook
      split at hres
      · rename_i hv
        exact absurd (hvis id hv) (Nat.lt_irrefl _)
      · rename_i hv
        split at hres
        · rename_i hd
          cases hres
          have h0 : (0 : Nat) = cdepth dep rank id := by
            rw [cdepth_eq dep rank hr id, hd]
          exact ⟨h0, memoOK_cons _ _ _ _ hm h0⟩
        · rename_i d ds hd
          split at hres
          · cases hres
          · rename_i m memo' hfold
            cases hres
            have hcall : ∀ mo x r, MemoOK (cdepth dep rank) mo → x ∈ d :: ds →
                computeDepth dep fuel mo (id :: visited) x = some r →
                r.1 = cdepth dep rank x ∧ MemoOK (cdepth dep rank) r.2 := by
              intro mo x r hmo hx hcd
              apply ih mo (id :: visited) x r hmo _ hcd
              intro y hy
              cases hy with
              | head => exact hr id x (hd ▸ hx)
              | tail _ hy' => exact Nat.lt_trans (hr id x (hd ▸ hx)) (hvis y hy')
            obtain ⟨h1, h2⟩ := foldDeps_correct (cdepth dep rank) _ (d :: ds) hcall 0 memo
              (m, memo') hm hfold
            have hfix : m + 1 = cdepth dep rank id := by
              have h1' : m = ((d :: ds).map (cdepth dep rank)).foldl max 0 := h1
              rw [cdepth_eq dep rank hr id, hd, h1']
            exact ⟨hfix, memoOK_cons _ _ _ _ h2 hfix⟩

lemma computeAllDepths_correct (dep : String → List String) (rank : String → Nat)
    (hr : ∀ id x, x ∈ dep id → rank x < rank id) (fuel : Nat) :
    ∀ toGo memo res, MemoOK (cdepth dep rank) memo →
      computeAllDepths dep fuel toGo memo = some res →
      res = toGo.map (fun i => (i, cdepth dep rank i)) := by
  intro toGo
  induction toGo with
  | nil =>
    intro memo res _ hres
    simp only [computeAllDepths] at hres
    cases hres
    rfl
  | cons id rest ih =>
    intro memo res hm hres
    simp only [computeAllDepths] at hres
    split at hres
    · cases hres
    · rename_i d memo' hcd
      obtain ⟨h1, h2⟩ := computeDepth_correct dep rank hr fuel memo [] id (d, memo') hm
        (by simp) hcd
      split at hres
      · cases hres
      · rename_i l hrest
        cases hres
        rw [ih memo' l h2 hrest, List.map_cons]
        simp only at h1
        rw [h1]

lemma lookup_map_self (g : String → Nat) :
    ∀ (l : List String) (id : String), id ∈ l →
      (l.map (fun i => (i, g i))).lookup id = some (g id) := by
  intro l
  induction l with
  | nil => intro id h; cases h
  | cons x xs ih =>
    intro id h
    simp only [List.map_cons, List.lookup]
    cases hx : id == x with
    | true => rw [beq_iff_eq.mp hx]
    | false =>
      cases h with
      | head => exact absurd (beq_self_eq_true x) (by simp at hx)
      | tail _ h' => exact ih id h'

lemma rankOK_full (ids : List String) (edges : List Edge) (rank : String → Nat)
    (hrk : RankOK ids edges rank) :
    ∀ id x, x ∈ dependsOnMap ids edges id → rank x < rank id := by
  intro id x hx
  by_cases hid : id ∈ ids
  · exact hrk id hid x hx
  · rw [dependsOnMap_not_mem ids edges id hid] at hx
    cases hx

lemma memoOK_nil (c : String → Nat) : MemoOK c [] := by
  intro x d h
  simp [List.lookup] at h

/-- On an acyclic input, `_compute_node_stats` returns exactly the map
assigning every node its recognized in/out-degree and canonical depth. -/
lemma computeNodeStats_eq (nodes : List Node) (edges : List Edge) (rank : String → Nat)
    (hrk : RankOK (nodes.map (fun n => n.id)) edges rank) :
    computeNodeStats nodes edges = some (nodes.map (statApply (nodes.map (fun n => n.id))
      edges (cdepth (dependsOnMap (nodes.map (fun n => n.id)) edges) rank))) := by
  have closed : ∀ x y, y ∈ dependsOnMap (nodes.map (fun n => n.id)) edges x →
      y ∈ nodes.map (fun n => n.id) :=
    fun x y hy => dependsOnMap_subset _ edges x y hy
  have hfull := rankOK_full (nodes.map (fun n => n.id)) edges rank hrk
  have hsome := computeAllDepths_isSome (dependsOnMap (nodes.map (fun n => n.id)) edges)
    (nodes.map (fun n => n.id)) closed ((nodes.map (fun n => n.id)).length + 1)
    (Nat.lt_succ_self _) (nodes.map (fun n => n.id)) [] (fun i hi => hi)
  obtain ⟨res, hres⟩ := Option.isSome_iff_exists.mp hsome
  have hresEq := computeAllDepths_correct _ rank hfull _ (nodes.map (fun n => n.id)) [] res
    (memoOK_nil _) hres
  simp only [computeNodeStats, hres, Option.some.injEq]
  apply List.map_congr_left
  intro n hn
  have hlook : res.lookup n.id =
      some (cdepth (dependsOnMap (nodes.map (fun n => n.id)) edges) rank n.id) := by
    rw [hresEq]
    exact lookup_map_self _ _ n.id (List.mem_map_of_mem _ hn)
  rw [hlook]
  rfl

lemma depthOf_map_statApply (nodes : List Node) (ids : List String) (edges : List Edge)
    (c : String → Nat) (x : String) (hx : x ∈ nodes.map (fun n => n.id)) :
    depthOf (nodes.map (statApply ids edges c)) x = c x := by
  obtain ⟨n, hn, rfl⟩ := List.mem_map.mp hx
  have hsome : (nodes.find? (fun m => m.id == n.id)).isSome :=
    List.find?_isSome.mpr ⟨n, hn, by simp⟩
  obtain ⟨m, hm⟩ := Option.isSome_iff_exists.mp hsome
  have hmid0 := List.find?_some hm
  simp only [beq_iff_eq] at hmid0
  have hfind : (nodes.map (statApply ids edges c)).find?
      (fun k => k.id == n.id) = some (statApply ids edges c m) := by
    rw [List.find?_map]
    have : (fun k : Node => k.id == n.id) ∘ statApply ids edges c =
        (fun m : Node => m.id == n.id) := rfl
    rw [this, hm]
    rfl
  simp only [depthOf, hfind, statApply, hmid0]

lemma find?_map_statApply (nodes : List Node) (ids : List String) (edges : List Edge)
    (c : String → Nat) (x : String) :
    (nodes.map (statApply ids edges c)).find? (fun k => k.id == x) =
      (nodes.find? (fun n => n.id == x)).map (statApply ids edges c) := by
  rw [List.find?_map]
  rfl

lemma statsOf_map_statApply (nodes : List Node) (ids : List String) (edges : List Edge)
    (c : String → Nat) (x : String) (hx : x ∈ nodes.map (fun n => n.id)) :
    statsOf (nodes.map (statApply ids edges c)) x =
      some (outDegree ids edges x, inDegree ids edges x, c x) := by
  obtain ⟨n, hn, rfl⟩ := List.mem_map.mp hx
  have hsome : (nodes.find? (fun m => m.id == n.id)).isSome :=
    List.find?_isSome.mpr ⟨n, hn, by simp⟩
  obtain ⟨m, hm⟩ := Option.isSome_iff_exists.mp hsome
  have hmid0 := List.find?_some hm
  simp only [beq_iff_eq] at hmid0
  simp only [statsOf, find?_map_statApply, hm, Option.map_some', statApply, hmid0]

lemma statsOf_map_statApply_not_mem (nodes : List Node) (ids : List String) (edges : List Edge)
    (c : String → Nat) (x : String) (hx : x ∉ nodes.map (fun n => n.id)) :
    statsOf (nodes.map (statApply ids edges c)) x = none := by
  have hfind : nodes.find? (fun n => n.id == x) = none := by
    rw [List.find?_eq_none]
    intro n hn
    simp only [beq_iff_eq]
    intro he
    exact hx (he ▸ List.mem_map_of_mem _ hn)
  simp only [statsOf, find?_map_statApply, hfind, Option.map_none']

lemma countsOf_eq_statsOf (nodes : List Node) (x : String) :
    countsOf nodes x = (statsOf nodes x).map (fun t => (t.1, t.2.1)) := by
  simp only [countsOf, statsOf]
  cases nodes.find? (fun n => n.id == x) <;> rfl

lemma contains_eq_of_perm (l₁ l₂ : List String) (h : l₁.Perm l₂) (x : String) :
    l₁.contains x = l₂.contains x := by
  by_cases hx : x ∈ l₁
  · rw [(contains_iff_mem _ _).mpr hx, (contains_iff_mem _ _).mpr (h.mem_iff.mp hx)]
  · have h1 : l₁.contains x = false := by
      rw [Bool.eq_false_iff]
      intro hc
      exact hx ((contains_iff_mem _ _).mp hc)
    have h2 : l₂.contains x = false := by
      rw [Bool.eq_false_iff]
      intro hc
      exact hx (h.mem_iff.mpr ((contains_iff_mem _ _).mp hc))
    rw [h1, h2]

lemma dependsOnMap_perm (ids₁ ids₂ : List String) (edges₁ edges₂ : List Edge)
    (hi : ids₁.Perm ids₂) (he : edges₁.Perm edges₂) (id : String) :
    (dependsOnMap ids₁ edges₁ id).Perm (dependsOnMap ids₂ edges₂ id) := by
  unfold dependsOnMap
  apply List.Perm.map
  have hfe : edges₂.filter (fun e => e.source == id && ids₁.contains e.source &&
      ids₁.contains e.target) = edges₂.filter (fun e => e.source == id &&
      ids₂.contains e.source && ids₂.contains e.target) := by
    apply List.filter_congr
    intro e _
    rw [contains_eq_of_perm ids₁ ids₂ hi e.source, contains_eq_of_perm ids₁ ids₂ hi e.target]
  rw [← hfe]
  exact he.filter _

lemma outDegree_perm (ids₁ ids₂ : List String) (edges₁ edges₂ : List Edge)
    (hi : ids₁.Perm ids₂) (he : edges₁.Perm edges₂) (id : String) :
    outDegree ids₁ edges₁ id = outDegree ids₂ edges₂ id := by
  unfold outDegree
  exact (dependsOnMap_perm ids₁ ids₂ edges₁ edges₂ hi he id).length_eq

lemma inDegree_perm (ids₁ ids₂ : List String) (edges₁ edges₂ : List Edge)
    (hi : ids₁.Perm ids₂) (he : edges₁.Perm edges₂) (id : String) :
    inDegree ids₁ edges₁ id = inDegree ids₂ edges₂ id := by
  unfold inDegree
  have hfe : edges₂.filter (fun e => e.target == id && ids₁.contains e.source &&
      ids₁.contains e.target) = edges₂.filter (fun e => e.target == id &&
      ids₂.contains e.source && ids₂.contains e.target) := by
    apply List.filter_congr
    intro e _
    rw [contains_eq_of_perm ids₁ ids₂ hi e.source, contains_eq_of_perm ids₁ ids₂ hi e.target]
  rw [← hfe]
  exact (he.filter _).length_eq

lemma foldl_max_shift (l : List Nat) : ∀ a : Nat, l.foldl max a = max a (l.foldl max 0) := by
  induction l with
  | nil => intro a; simp
  | cons x xs ih =>
    intro a
    simp only [List.foldl_cons]
    rw [ih (max a x), ih (max 0 x)]
    omega

lemma foldlMax_perm (l₁ l₂ : List Nat) (h : l₁.Perm l₂) :
    l₁.foldl max 0 = l₂.foldl max 0 := by
  induction h with
  | nil => rfl
  | cons x _ ih =>
    simp only [List.foldl_cons]
    rw [foldl_max_shift, ih, ← foldl_max_shift]
  | swap x y l =>
    simp only [List.foldl_cons]
    rw [foldl_max_shift, foldl_max_shift _ (max (max 0 x) y)]
    omega
  | trans _ _ ih₁ ih₂ => exact ih₁.trans ih₂

lemma cdepth_of_nil (dep : String → List String) (rank : String → Nat) (id : String)
    (hd : dep id = []) : cdepth dep rank id = 0 := by
  simp [cdepth, specDepthF, hd]

lemma cdepth_of_cons (dep : String → List String) (rank : String → Nat)
    (hr : ∀ id x, x ∈ dep id → rank x < rank id) (id d : String) (ds : List String)
    (hd : dep id = d :: ds) :
    cdepth dep rank id = ((d :: ds).map (cdepth dep rank)).foldl max 0 + 1 := by
  rw [cdepth_eq dep rank hr id, hd]

lemma cdepth_congr_perm (dep₁ dep₂ : String → List String) (rank : String → Nat)
    (hr₁ : ∀ id x, x ∈ dep₁ id → rank x < rank id)
    (hperm : ∀ id, (dep₁ id).Perm (dep₂ id)) :
    ∀ n id, rank id ≤ n → cdepth dep₁ rank id = cdepth dep₂ rank id := by
  have hr₂ : ∀ id x, x ∈ dep₂ id → rank x < rank id := by
    intro id x hx
    exact hr₁ id x ((hperm id).mem_iff.mpr hx)
  intro n
  induction n with
  | zero =>
    intro id hn
    cases hd₁ : dep₁ id with
    | nil =>
      have hd₂ : dep₂ id = [] := List.Perm.eq_nil (hd₁ ▸ (hperm id)).symm
      rw [cdepth_of_nil dep₁ rank id hd₁, cdepth_of_nil dep₂ rank id hd₂]
    | cons d ds =>
      have := hr₁ id d (hd₁ ▸ List.mem_cons_self d ds)
      omega
  | succ k ih =>
    intro id hn
    cases hd₁ : dep₁ id with
    | nil =>
      have hd₂ : dep₂ id = [] := List.Perm.eq_nil (hd₁ ▸ (hperm id)).symm
      rw [cdepth_of_nil dep₁ rank id hd₁, cdepth_of_nil dep₂ rank id hd₂]
    | cons d ds =>
      cases hd₂ : dep₂ id with
      | nil =>
        have := (hperm id).length_eq
        rw [hd₁, hd₂] at this
        simp at this
      | cons d' ds' =>
        rw [cdepth_of_cons dep₁ rank hr₁ id d ds hd₁, cdepth_of_cons dep₂ rank hr₂ id d' ds' hd₂]
        have hstep1 : ((d :: ds).map (cdepth dep₁ rank)).foldl max 0 =
            ((d' :: ds').map (cdepth dep₁ rank)).foldl max 0 := by
          apply foldlMax_perm
          apply List.Perm.map
          rw [← hd₁, ← hd₂]
          exact hperm id
        have hstep2 : (d' :: ds').map (cdepth dep₁ rank) =
            (d' :: ds').map (cdepth dep₂ rank) := by
          apply List.map_congr_left
          intro x hx
          have hx₁ : x ∈ dep₁ id := (hperm id).mem_iff.mpr (hd₂ ▸ hx)
          have := hr₁ id x hx₁
          exact ih x (by omega)
        rw [hstep1, hstep2]

lemma computeNodeStats_some_eq (nodes : List Node) (edges : List Edge)
    (depths : List (String × Nat))
    (h : computeAllDepths (dependsOnMap (nodes.map (fun n => n.id)) edges)
      ((nodes.map (fun n => n.id)).length + 1) (nodes.map (fun n => n.id)) [] = some depths) :
    computeNodeStats nodes edges = some (nodes.map (statApply (nodes.map (fun n => n.id))
      edges (fun id => (depths.lookup id).getD 0))) := by
  simp only [computeNodeStats, h]
  rfl

lemma computeNodeStats_idem (nodes : List Node) (edges : List Edge) (r : List Node)
    (h : computeNodeStats nodes edges = some r) : computeNodeStats r edges = some r := by
  cases hAD : computeAllDepths (dependsOnMap (nodes.map (fun n => n.id)) edges)
      ((nodes.map (fun n => n.id)).length + 1) (nodes.map (fun n => n.id)) [] with
  | none =>
    simp only [computeNodeStats, hAD] at h
    cases h
  | some depths =>
    have hchar := computeNodeStats_some_eq nodes edges depths hAD
    rw [hchar] at h
    injection h with h
    subst h
    have hids : (nodes.map (statApply (nodes.map (fun n => n.id)) edges
        (fun id => (depths.lookup id).getD 0))).map (fun n => n.id) =
        nodes.map (fun n => n.id) := by
      rw [List.map_map]
      rfl
    simp only [computeNodeStats, hids, hAD, Option.some.injEq]
    rw [List.map_map]
    apply List.map_congr_left
    intro n _
    rfl

/-- C4: the depth computation terminates on every finite node/edge set,
cyclic or not, assigning every node a (finite) depth: the fuelled
embedding never exhausts its fuel and returns one stats record per
input node. -/
theorem compute_node_stats_total (nodes : List Node) (edges : List Edge) :
    ∃ r, computeNodeStats nodes edges = some r ∧ r.length = nodes.length := by
  have closed : ∀ x y, y ∈ dependsOnMap (nodes.map (fun n => n.id)) edges x →
      y ∈ nodes.map (fun n => n.id) :=
    fun x y hy => dependsOnMap_subset _ edges x y hy
  have hsome := computeAllDepths_isSome (dependsOnMap (nodes.map (fun n => n.id)) edges)
    (nodes.map (fun n => n.id)) closed ((nodes.map (fun n => n.id)).length + 1)
    (Nat.lt_succ_self _) (nodes.map (fun n => n.id)) [] (fun i hi => hi)
  obtain ⟨res, hres⟩ := Option.isSome_iff_exists.mp hsome
  have hstats : computeNodeStats nodes edges = some (nodes.map (fun n =>
      { n with
        dependsOnCount := outDegree (nodes.map (fun n => n.id)) edges n.id
        usedByCount := inDegree (nodes.map (fun n => n.id)) edges n.id
        depth := (res.lookup n.id).getD 0 })) := by
    simp only [computeNodeStats, hres]
  exact ⟨_, hstats, by simp⟩

/-- C1 (amended: the depth fixed-point equations are asserted only for
inputs whose recognized dependency graph is acyclic, witnessed by a
topological rank; on cyclic inputs they fail, see the counterexample):
after a full statistics computation, every node's `depends_on_count`
equals its out-degree and `used_by_count` its in-degree over the edges
with both endpoints present; a node with no recognized dependencies has
depth 0, and every other node's depth is 1 plus the maximum depth of its
dependencies. -/
theorem stats_fixpoint_on_acyclic (nodes : List Node) (edges : List Edge)
    (rank : String → Nat) (hrk : RankOK (nodes.map (fun n => n.id)) edges rank) :
    ∃ r, computeNodeStats nodes edges = some r ∧
      (∀ n ∈ r, n.dependsOnCount = outDegree (nodes.map (fun n => n.id)) edges n.id ∧
        n.usedByCount = inDegree (nodes.map (fun n => n.id)) edges n.id) ∧
      (∀ n ∈ r, dependsOnMap (nodes.map (fun n => n.id)) edges n.id = [] → n.depth = 0) ∧
      (∀ n ∈ r, ∀ d ds, dependsOnMap (nodes.map (fun n => n.id)) edges n.id = d :: ds →
        n.depth = ((d :: ds).map (fun x => depthOf r x)).foldl max 0 + 1) := by
  have hfull := rankOK_full (nodes.map (fun n => n.id)) edges rank hrk
  refine ⟨_, computeNodeStats_eq nodes edges rank hrk, ?_, ?_, ?_⟩
  · intro n hn
    obtain ⟨n0, _, rfl⟩ := List.mem_map.mp hn
    exact ⟨rfl, rfl⟩
  · intro n hn hdep
    obtain ⟨n0, _, rfl⟩ := List.mem_map.mp hn
    exact cdepth_of_nil _ rank n0.id hdep
  · intro n hn d ds hdep
    obtain ⟨n0, _, rfl⟩ := List.mem_map.mp hn
    have hdepth : (statApply (nodes.map (fun n => n.id)) edges
        (cdepth (dependsOnMap (nodes.map (fun n => n.id)) edges) rank) n0).depth =
        cdepth (dependsOnMap (nodes.map (fun n => n.id)) edges) rank n0.id := rfl
    rw [hdepth, cdepth_of_cons _ rank hfull n0.id d ds hdep]
    have hmap : (d :: ds).map (cdepth (dependsOnMap (nodes.map (fun n => n.id)) edges) rank) =
        (d :: ds).map (fun x => depthOf (nodes.map (statApply (nodes.map (fun n => n.id)) edges
          (cdepth (dependsOnMap (nodes.map (fun n => n.id)) edges) rank))) x) := by
      apply List.map_congr_left
      intro x hx
      have hxids : x ∈ nodes.map (fun n => n.id) :=
        dependsOnMap_subset _ edges n0.id x (hdep ▸ hx)
      exact (depthOf_map_statApply nodes _ edges _ x hxids).symm
    rw [hmap]

/-- C1 witness: the worked example `A` (no deps), `B` depends on `A`,
`C` depends on `B` is acyclic under `abcRank`, the theorem applies, and
the computed stats are `depth(A)=0, depth(B)=1, depth(C)=2`,
`used_by_count(A)=1`, `depends_on_count(C)=1`. -/
theorem stats_fixpoint_on_acyclic_witness :
    RankOK (abcNodes.map (fun n => n.id)) abcEdges abcRank ∧
    (∃ r, computeNodeStats abcNodes abcEdges = some r ∧
      (∀ n ∈ r, n.dependsOnCount = outDegree (abcNodes.map (fun n => n.id)) abcEdges n.id ∧
        n.usedByCount = inDegree (abcNodes.map (fun n => n.id)) abcEdges n.id) ∧
      (∀ n ∈ r, dependsOnMap (abcNodes.map (fun n => n.id)) abcEdges n.id = [] → n.depth = 0) ∧
      (∀ n ∈ r, ∀ d ds, dependsOnMap (abcNodes.map (fun n => n.id)) abcEdges n.id = d :: ds →
        n.depth = ((d :: ds).map (fun x => depthOf r x)).foldl max 0 + 1)) ∧
    (computeNodeStats abcNodes abcEdges).map (fun r =>
      (statsOf r "A", statsOf r "B", statsOf r "C")) =
      some (some (0, 1, 0), some (1, 1, 1), some (1, 0, 2)) :=
  ⟨by decide, stats_fixpoint_on_acyclic abcNodes abcEdges abcRank (by decide), by decide⟩

/-- C1 counterexample: on the two-node cycle `A→B`, `B→A` (both
endpoints present), node `B` has the nonempty dependency list `["A"]`
but its computed depth is 1 while `1 + max(depth of dependencies)` is 3,
so the claim's depth equation fails on an input it quantifies over. -/
theorem stats_fixpoint_counterexample :
    (computeNodeStats cycNodes cycEdges).map (fun r =>
      (dependsOnMap (cycNodes.map (fun n => n.id)) cycEdges "B",
        depthOf r "B", (["A"].map (fun x => depthOf r x)).foldl max 0 + 1)) =
      some (["A"], 1, 3) ∧ (1 : Nat) ≠ 3 :=
  ⟨by decide, by decide⟩

/-- C2 counterexample: on the two-node cycle `A→B`, `B→A` in iteration
order `[A, B]`, the computation terminates but assigns node `A` depth 2,
not 0 as the claim states. -/
theorem cycle_two_depth_counterexample :
    (computeNodeStats cycNodes cycEdges).map (fun r => depthOf r "A") = some 2 ∧
    (2 : Nat) ≠ 0 :=
  ⟨by decide, by decide⟩

/-- C2 (amended: the computation does terminate on the two-node cycle,
but the first-visited node `A` is assigned depth 2 and `B` depth 1 — the
memo records the values computed under the cycle guard, so neither node
gets depth 0). -/
theorem cycle_two_terminates :
    (computeNodeStats cycNodes cycEdges).isSome = true ∧
    (computeNodeStats cycNodes cycEdges).map (fun r => (depthOf r "A", depthOf r "B")) =
      some (2, 1) :=
  ⟨by decide, by decide⟩

/-- C3 counterexample: the two iteration orders `[A, B]` and `[B, A]` of
the same two-node cyclic graph give node `A` depth 2 respectively 1, so
the statistics are not independent of the input iteration order. -/
theorem stats_order_dependent_counterexample :
    cycNodes.Perm cycNodesRev ∧
    (computeNodeStats cycNodes cycEdges).map (fun r => depthOf r "A") = some 2 ∧
    (computeNodeStats cycNodesRev cycEdges).map (fun r => depthOf r "A") = some 1 :=
  ⟨by decide, by decide, by decide⟩

/-- C3 (amended: on acyclic inputs all three statistics are independent
of the iteration order of nodes and edges; on arbitrary inputs the two
degree counters are still order-independent, and the whole computation
is idempotent — only the depth of nodes on cycles is order-dependent). -/
theorem stats_deterministic_and_idempotent :
    (∀ (nodes₁ nodes₂ : List Node) (edges₁ edges₂ : List Edge) (rank : String → Nat),
      nodes₁.Perm nodes₂ → edges₁.Perm edges₂ →
      RankOK (nodes₁.map (fun n => n.id)) edges₁ rank →
      ∀ r₁ r₂, computeNodeStats nodes₁ edges₁ = some r₁ →
        computeNodeStats nodes₂ edges₂ = some r₂ →
        ∀ x, statsOf r₁ x = statsOf r₂ x) ∧
    (∀ (nodes₁ nodes₂ : List Node) (edges₁ edges₂ : List Edge),
      nodes₁.Perm nodes₂ → edges₁.Perm edges₂ →
      ∀ r₁ r₂, computeNodeStats nodes₁ edges₁ = some r₁ →
        computeNodeStats nodes₂ edges₂ = some r₂ →
        ∀ x, countsOf r₁ x = countsOf r₂ x) ∧
    (∀ (nodes : List Node) (edges : List Edge) (r : List Node),
      computeNodeStats nodes edges = some r → computeNodeStats r edges = some r) := by
  have hperm_ids : ∀ (nodes₁ nodes₂ : List Node), nodes₁.Perm nodes₂ →
      (nodes₁.map (fun n => n.id)).Perm (nodes₂.map (fun n => n.id)) :=
    fun _ _ h => h.map _
  refine ⟨?_, ?_, computeNodeStats_idem⟩
  · intro nodes₁ nodes₂ edges₁ edges₂ rank hn he hrk r₁ r₂ h₁ h₂ x
    have hids := hperm_ids nodes₁ nodes₂ hn
    have hrk₂ : RankOK (nodes₂.map (fun n => n.id)) edges₂ rank := by
      intro id hid y hy
      have hid₁ : id ∈ nodes₁.map (fun n => n.id) := hids.mem_iff.mpr hid
      have hy₁ : y ∈ dependsOnMap (nodes₁.map (fun n => n.id)) edges₁ id :=
        (dependsOnMap_perm _ _ _ _ hids he id).mem_iff.mpr hy
      exact hrk id hid₁ y hy₁
    rw [computeNodeStats_eq nodes₁ edges₁ rank hrk] at h₁
    rw [computeNodeStats_eq nodes₂ edges₂ rank hrk₂] at h₂
    injection h₁ with h₁
    injection h₂ with h₂
    subst h₁
    subst h₂
    by_cases hx : x ∈ nodes₁.map (fun n => n.id)
    · have hx₂ : x ∈ nodes₂.map (fun n => n.id) := hids.mem_iff.mp hx
      rw [statsOf_map_statApply nodes₁ _ edges₁ _ x hx,
        statsOf_map_statApply nodes₂ _ edges₂ _ x hx₂]
      have hout := outDegree_perm _ _ _ _ hids he x
      have hin := inDegree_perm _ _ _ _ hids he x
      have hdep : cdepth (dependsOnMap (nodes₁.map (fun n => n.id)) edges₁) rank x =
          cdepth (dependsOnMap (nodes₂.map (fun n => n.id)) edges₂) rank x := by
        apply cdepth_congr_perm _ _ rank
          (rankOK_full (nodes₁.map (fun n => n.id)) edges₁ rank hrk)
          (fun id => dependsOnMap_perm _ _ _ _ hids he id) (rank x) x (Nat.le_refl _)
      rw [hout, hin, hdep]
    · have hx₂ : x ∉ nodes₂.map (fun n => n.id) := fun hc => hx (hids.mem_iff.mpr hc)
      rw [statsOf_map_statApply_not_mem nodes₁ _ edges₁ _ x hx,
        statsOf_map_statApply_not_mem nodes₂ _ edges₂ _ x hx₂]
  · intro nodes₁ nodes₂ edges₁ edges₂ hn he r₁ r₂ h₁ h₂ x
    have hids := hperm_ids nodes₁ nodes₂ hn
    cases hAD₁ : computeAllDepths (dependsOnMap (nodes₁.map (fun n => n.id)) edges₁)
        ((nodes₁.map (fun n => n.id)).length + 1) (nodes₁.map (fun n => n.id)) [] with
    | none => simp only [computeNodeStats, hAD₁] at h₁; cases h₁
    | some depths₁ =>
      cases hAD₂ : computeAllDepths (dependsOnMap (nodes₂.map (fun n => n.id)) edges₂)
          ((nodes₂.map (fun n => n.id)).length + 1) (nodes₂.map (fun n => n.id)) [] with
      | none => simp only [computeNodeStats, hAD₂] at h₂; cases h₂
      | some depths₂ =>
        rw [computeNodeStats_some_eq nodes₁ edges₁ depths₁ hAD₁] at h₁
        rw [computeNodeStats_some_eq nodes₂ edges₂ depths₂ hAD₂] at h₂
        injection h₁ with h₁
        injection h₂ with h₂
        subst h₁
        subst h₂
        rw [countsOf_eq_statsOf, countsOf_eq_statsOf]
        by_cases hx : x ∈ nodes₁.map (fun n => n.id)
        · have hx₂ : x ∈ nodes₂.map (fun n => n.id) := hids.mem_iff.mp hx
          rw [statsOf_map_statApply nodes₁ _ edges₁ _ x hx,
            statsOf_map_statApply nodes₂ _ edges₂ _ x hx₂]
          have hout := outDegree_perm _ _ _ _ hids he x
          have hin := inDegree_perm _ _ _ _ hids he x
          simp [hout, hin]
        · have hx₂ : x ∉ nodes₂.map (fun n => n.id) := fun hc => hx (hids.mem_iff.mpr hc)
          rw [statsOf_map_statApply_not_mem nodes₁ _ edges₁ _ x hx,
            statsOf_map_statApply_not_mem nodes₂ _ edges₂ _ x hx₂]

/-- C3 witness: the amended determinism statement applied to the worked
example in two different orders, and idempotence applied to its output. -/
theorem stats_deterministic_witness :
    (abcNodes.Perm abcNodes.reverse ∧ abcEdges.Perm abcEdges.reverse ∧
      RankOK (abcNodes.map (fun n => n.id)) abcEdges abcRank) ∧
    (∀ r₁ r₂, computeNodeStats abcNodes abcEdges = some r₁ →
      computeNodeStats abcNodes.reverse abcEdges.reverse = some r₂ →
      ∀ x, statsOf r₁ x = statsOf r₂ x) :=
  ⟨⟨by decide, by decide, by decide⟩,
    stats_deterministic_and_idempotent.1 abcNodes abcNodes.reverse abcEdges abcEdges.reverse
      abcRank (by decide) (by decide) (by decide)⟩

/-- C5: saving any node and edge lists and loading while the artifact
hash is unchanged succeeds and returns exactly the saved structural
fields (id, name, kind, file path, line number, references, both
counters, depth, default styles), with every loaded node's proof status
reset to UNKNOWN regardless of its status at save time. -/
theorem cache_round_trip (nodes : List Node) (edges : List Edge) (h t : String) :
    loadSnapshot (some (saveSnapshot nodes edges h t)) h =
      some (nodes.map cacheNodeRoundTrip, edges.map cacheEdgeRoundTrip) ∧
    (∀ n ∈ nodes, (cacheNodeRoundTrip n).id = n.id ∧ (cacheNodeRoundTrip n).name = n.name ∧
      (cacheNodeRoundTrip n).kind = n.kind ∧ (cacheNodeRoundTrip n).filePath = n.filePath ∧
      (cacheNodeRoundTrip n).lineNumber = n.lineNumber ∧
      (cacheNodeRoundTrip n).references = n.references ∧
      (cacheNodeRoundTrip n).dependsOnCount = n.dependsOnCount ∧
      (cacheNodeRoundTrip n).usedByCount = n.usedByCount ∧
      (cacheNodeRoundTrip n).depth = n.depth ∧
      (cacheNodeRoundTrip n).defaultColor = n.defaultColor ∧
      (cacheNodeRoundTrip n).defaultSize = n.defaultSize ∧
      (cacheNodeRoundTrip n).defaultShape = n.defaultShape ∧
      (cacheNodeRoundTrip n).status = ProofStatus.unknown) ∧
    (∀ e ∈ edges, (cacheEdgeRoundTrip e).source = e.source ∧
      (cacheEdgeRoundTrip e).target = e.target ∧
      (cacheEdgeRoundTrip e).leanSourced = e.leanSourced ∧
      (cacheEdgeRoundTrip e).defaultColor = e.defaultColor ∧
      (cacheEdgeRoundTrip e).defaultWidth = e.defaultWidth ∧
      (cacheEdgeRoundTrip e).defaultStyle = e.defaultStyle) := by
  refine ⟨?_, ?_, ?_⟩
  · have hvalid : isValidSnapshot (some (saveSnapshot nodes edges h t)) h = true := by
      simp [isValidSnapshot, saveSnapshot]
    simp only [loadSnapshot, hvalid, if_true]
    simp only [saveSnapshot, List.map_map, Option.some.injEq]
    rfl
  · intro n _
    exact ⟨rfl, rfl, rfl, rfl, rfl, rfl, rfl, rfl, rfl, rfl, rfl, rfl, rfl⟩
  · intro e _
    exact ⟨rfl, rfl, rfl, rfl, rfl, rfl⟩

/-- C6 counterexample: with no tracked artifacts the current hash is the
empty string, yet a persisted snapshot whose stored hash is also empty
(as written by a save performed with no artifacts) validates and loads —
the cache is not always a miss. -/
theorem no_artifacts_cache_hit_counterexample :
    computeIleanHash [] = "" ∧
    isValidSnapshot (some (saveSnapshot [] [] (computeIleanHash []) "t"))
      (computeIleanHash []) = true ∧
    loadSnapshot (some (saveSnapshot [] [] (computeIleanHash []) "t"))
      (computeIleanHash []) = some ([], []) :=
  ⟨rfl, by decide, by decide⟩

/-- C6 (amended: with no tracked artifacts `compute_hash` returns the
empty string, and the cache is a miss — `is_valid` false and `load`
`None` — for a missing file and for every persisted snapshot whose
stored hash is nonempty; a snapshot that itself stores the empty hash
validates, see the counterexample). -/
theorem no_artifacts_cache_miss (snap : Snapshot) (hne : snap.ileanHash ≠ "") :
    computeIleanHash [] = "" ∧
    isValidSnapshot none (computeIleanHash []) = false ∧
    isValidSnapshot (some snap) (computeIleanHash []) = false ∧
    loadSnapshot (some snap) (computeIleanHash []) = none := by
  have hbeq : (snap.ileanHash == "") = false := by
    simp [hne]
  have hvalid : isValidSnapshot (some snap) (computeIleanHash []) = false := by
    simp only [isValidSnapshot, computeIleanHash, List.isEmpty_nil, if_true, hbeq,
      Bool.and_false]
  refine ⟨rfl, rfl, hvalid, ?_⟩
  simp only [loadSnapshot, hvalid, Bool.false_eq_true, if_false]

/-- C6 witness: a concrete snapshot with the nonempty stored hash `"x"`
satisfies the amended statement. -/
theorem no_artifacts_cache_miss_witness :
    (saveSnapshot [] [] "x" "t").ileanHash ≠ "" ∧
    (computeIleanHash [] = "" ∧
      isValidSnapshot none (computeIleanHash []) = false ∧
      isValidSnapshot (some (saveSnapshot [] [] "x" "t")) (computeIleanHash []) = false ∧
      loadSnapshot (some (saveSnapshot [] [] "x" "t")) (computeIleanHash []) = none) :=
  ⟨by decide, no_artifacts_cache_miss (saveSnapshot [] [] "x" "t") (by decide)⟩

lemma beq_comm_str (a b : String) : (a == b) = (b == a) := by
  by_cases h : a = b
  · simp [h]
  · have h1 : (a == b) = false := beq_eq_false_iff_ne.mpr h
    have h2 : (b == a) = false := beq_eq_false_iff_ne.mpr (fun hc => h hc.symm)
    rw [h1, h2]

lemma lookup_append {β : Type} :
    ∀ (l₁ l₂ : List (String × β)) (a : String),
      (l₁ ++ l₂).lookup a =
        match l₁.lookup a with
        | some v => some v
        | none => l₂.lookup a := by
  intro l₁
  induction l₁ with
  | nil => intro l₂ a; rfl
  | cons p l₁ ih =>
    intro l₂ a
    simp only [List.cons_append, List.lookup]
    cases a == p.1 with
    | true => rfl
    | false => exact ih l₂ a

lemma any_false_lookup_none {β : Type} :
    ∀ (m : List (String × β)) (k : String),
      m.any (fun p => p.1 == k) = false → m.lookup k = none := by
  intro m
  induction m with
  | nil => intro k _; rfl
  | cons p m ih =>
    intro k h
    simp only [List.any_cons, Bool.or_eq_false_iff] at h
    simp only [List.lookup]
    have : (k == p.1) = false := by rw [beq_comm_str]; exact h.1
    rw [this]
    exact ih k h.2

lemma lookup_map_overwrite_ne {β : Type} (k : String) (v : β) :
    ∀ (m : List (String × β)) (id : String), id ≠ k →
      (m.map (fun p => if p.1 == k then (k, v) else p)).lookup id = m.lookup id := by
  intro m
  induction m with
  | nil => intro id _; rfl
  | cons p m ih =>
    intro id hid
    by_cases hp : p.1 == k
    · simp only [List.map_cons, if_pos hp]
      have hidk : (id == k) = false := beq_eq_false_iff_ne.mpr hid
      have hidp : (id == p.1) = false := by
        rw [beq_iff_eq.mp hp]
        exact hidk
      simp only [List.lookup, hidk, hidp]
      exact ih id hid
    · simp only [List.map_cons, if_neg hp]
      simp only [List.lookup]
      cases id == p.1 with
      | true => rfl
      | false => exact ih id hid

lemma lookup_map_overwrite_eq {β : Type} (k : String) (v : β) :
    ∀ m : List (String × β), m.any (fun p => p.1 == k) = true →
      (m.map (fun p => if p.1 == k then (k, v) else p)).lookup k = some v := by
  intro m
  induction m with
  | nil => intro h; simp at h
  | cons p m ih =>
    intro h
    simp only [List.map_cons]
    by_cases hp : p.1 == k
    · rw [if_pos hp]
      simp [List.lookup]
    · rw [if_neg hp]
      simp only [List.any_cons, Bool.or_eq_true] at h
      rcases h with h | h
      · exact absurd h hp
      · simp only [List.lookup]
        have : (k == p.1) = false := by
          rw [beq_comm_str]
          exact Bool.eq_false_iff.mpr hp
        rw [this]
        exact ih h

lemma dictInsert_lookup {β : Type} (m : List (String × β)) (k id : String) (v : β) :
    (dictInsert m k v).lookup id = if id == k then some v else m.lookup id := by
  unfold dictInsert
  by_cases hany : m.any (fun p => p.1 == k)
  · rw [if_pos hany]
    by_cases hid : id = k
    · rw [hid, lookup_map_overwrite_eq k v m hany]
      simp
    · rw [lookup_map_overwrite_ne k v m id hid]
      have : (id == k) = false := beq_eq_false_iff_ne.mpr hid
      rw [this]
      simp
  · rw [if_neg hany]
    rw [lookup_append]
    by_cases hid : id = k
    · subst hid
      rw [any_false_lookup_none m id (Bool.eq_false_iff.mpr hany)]
      simp [List.lookup]
    · have hbeq : (id == k) = false := beq_eq_false_iff_ne.mpr hid
      have hsingle : ([(k, v)] : List (String × β)).lookup id = none := by
        simp only [List.lookup, hbeq]
      rw [hsingle, hbeq]
      cases m.lookup id <;> simp

lemma lookup_foldl_dictInsert {β : Type} (f : InputPos → β) :
    ∀ (input : List (String × InputPos)) (m : List (String × β)) (id : String),
      (input.foldl (fun acc kp => dictInsert acc kp.1 (f kp.2)) m).lookup id =
        match input.reverse.lookup id with
        | some p => some (f p)
        | none => m.lookup id := by
  intro input
  induction input with
  | nil => intro m id; rfl
  | cons kp rest ih =>
    intro m id
    simp only [List.foldl_cons, List.reverse_cons]
    rw [ih, lookup_append]
    cases h : rest.reverse.lookup id with
    | some q => rfl
    | none =>
      rw [dictInsert_lookup]
      cases hk : id == kp.1 with
      | true => simp [List.lookup, hk]
      | false => simp [List.lookup, hk]

/-- C10: `update_positions` with an empty map leaves the cache file
untouched; for a non-empty map, the entry stored for each input key is
exactly `x` and `y` taken from its last input occurrence with missing
components defaulting to 0, any `z` or other component being discarded
(the stored value depends only on the `x` and `y` components), all as
observable through `get_positions`. -/
theorem update_positions_spec :
    (∀ file, updatePositions [] file = file) ∧
    (∀ (input : List (String × InputPos)) file id p,
      input.reverse.lookup id = some p →
      (getPositions (updatePositions input file)).lookup id =
        some { x := p.x?.getD 0, y := p.y?.getD 0 }) ∧
    (∀ (input₁ input₂ : List (String × InputPos)) file,
      input₁.map (fun kp => (kp.1, kp.2.x?, kp.2.y?)) =
        input₂.map (fun kp => (kp.1, kp.2.x?, kp.2.y?)) →
      updatePositions input₁ file = updatePositions input₂ file) := by
  refine ⟨fun file => rfl, ?_, ?_⟩
  · intro input file id p hp
    cases input with
    | nil => simp [List.lookup] at hp
    | cons kp rest =>
      simp only [updatePositions, List.isEmpty_cons, Bool.false_eq_true, if_false,
        getPositions, Option.getD_some]
      rw [lookup_foldl_dictInsert (fun q => ({ x := q.x?.getD 0, y := q.y?.getD 0 } : StoredPos))
        (kp :: rest) (file.getD []) id, hp]
  · intro input₁ input₂ file hmap
    have hfold : ∀ (l₁ l₂ : List (String × InputPos)),
        l₁.map (fun kp => (kp.1, kp.2.x?, kp.2.y?)) =
          l₂.map (fun kp => (kp.1, kp.2.x?, kp.2.y?)) →
        ∀ (m : List (String × StoredPos)),
          l₁.foldl (fun acc kp => dictInsert acc kp.1
            { x := kp.2.x?.getD 0, y := kp.2.y?.getD 0 }) m =
          l₂.foldl (fun acc kp => dictInsert acc kp.1
            { x := kp.2.x?.getD 0, y := kp.2.y?.getD 0 }) m := by
      intro l₁
      induction l₁ with
      | nil =>
        intro l₂ h m
        cases l₂ with
        | nil => rfl
        | cons q qs => simp at h
      | cons kp rest ih =>
        intro l₂ h m
        cases l₂ with
        | nil => simp at h
        | cons q qs =>
          simp only [List.map_cons, List.cons.injEq, Prod.mk.injEq] at h
          simp only [List.foldl_cons]
          rw [h.1.1, h.1.2.1, h.1.2.2]
          exact ih qs h.2 (dictInsert m q.1 { x := q.2.x?.getD 0, y := q.2.y?.getD 0 })
    cases input₁ with
    | nil =>
      cases input₂ with
      | nil => rfl
      | cons q qs => simp at hmap
    | cons kp rest =>
      cases input₂ with
      | nil => simp at hmap
      | cons q qs =>
        simp only [updatePositions, List.isEmpty_cons, if_false]
        rw [hfold (kp :: rest) (q :: qs) hmap]

/-- C10 witness: a single-entry map with `x = 1`, no `y` and a `z`
component stores exactly `x = 1, y = 0`. -/
theorem update_positions_spec_witness :
    ([("n1", ({ x? := some 1, y? := none, z? := some 5 } : InputPos))].reverse.lookup "n1" =
      some ({ x? := some 1, y? := none, z? := some 5 } : InputPos)) ∧
    (getPositions (updatePositions
      [("n1", { x? := some 1, y? := none, z? := some 5 })] none)).lookup "n1" =
      some { x := 1, y := 0 } :=
  ⟨by decide,
    update_positions_spec.2.1 [("n1", { x? := some 1, y? := none, z? := some 5 })] none "n1"
      { x? := some 1, y? := none, z? := some 5 } (by decide)⟩

lemma contains_eq_of_mem_iff (l₁ l₂ : List String) (h : ∀ x, x ∈ l₁ ↔ x ∈ l₂) (x : String) :
    l₁.contains x = l₂.contains x := by
  by_cases hx : x ∈ l₁
  · rw [(contains_iff_mem _ _).mpr hx, (contains_iff_mem _ _).mpr ((h x).mp hx)]
  · have h1 : l₁.contains x = false := by
      rw [Bool.eq_false_iff]
      intro hc
      exact hx ((contains_iff_mem _ _).mp hc)
    have h2 : l₂.contains x = false := by
      rw [Bool.eq_false_iff]
      intro hc
      exact hx ((h x).mpr ((contains_iff_mem _ _).mp hc))
    rw [h1, h2]

lemma any_key_eq_contains {β : Type} :
    ∀ (m : List (String × β)) (k : String),
      m.any (fun p => p.1 == k) = (m.map Prod.fst).contains k := by
  intro m
  induction m with
  | nil => intro k; rfl
  | cons p m ih =>
    intro k
    simp only [List.any_cons, List.map_cons, List.contains_cons]
    rw [ih, beq_comm_str p.1 k]

lemma dictInsert_keys {β : Type} (m : List (String × β)) (k : String) (v : β) :
    (dictInsert m k v).map Prod.fst =
      if m.any (fun p => p.1 == k) then m.map Prod.fst else m.map Prod.fst ++ [k] := by
  unfold dictInsert
  by_cases hany : m.any (fun p => p.1 == k)
  · rw [if_pos hany, if_pos hany, List.map_map]
    apply List.map_congr_left
    intro p _
    by_cases hp : p.1 == k
    · simp only [Function.comp, if_pos hp]
      exact (beq_iff_eq.mp hp).symm
    · simp only [Function.comp, if_neg hp]
  · rw [if_neg hany, if_neg hany, List.map_append]
    rfl

lemma nodup_keys_dictInsert {β : Type} (m : List (String × β)) (k : String) (v : β)
    (h : (m.map Prod.fst).Nodup) : ((dictInsert m k v).map Prod.fst).Nodup := by
  rw [dictInsert_keys]
  by_cases hany : m.any (fun p => p.1 == k)
  · rw [if_pos hany]
    exact h
  · rw [if_neg hany]
    have hk : k ∉ m.map Prod.fst := by
      intro hc
      have hcc := (contains_iff_mem (m.map Prod.fst) k).mpr hc
      rw [← any_key_eq_contains] at hcc
      exact hany hcc
    simp [List.nodup_append, h, hk]

lemma loadAux_nodup (stem : String → String) :
    ∀ (decls : List Node) (store : List (String × Node)),
      (store.map Prod.fst).Nodup → ((loadFromCacheAux stem decls store).map Prod.fst).Nodup := by
  intro decls
  induction decls with
  | nil => intro store h; exact h
  | cons n rest ih =>
    intro store h
    simp only [loadFromCacheAux]
    exact ih _ (nodup_keys_dictInsert _ _ _ h)

lemma assignId_congr (stem : String → String) (l₁ l₂ : List String) (n : Node)
    (h : l₁.contains n.id = l₂.contains n.id) : assignId stem l₁ n = assignId stem l₂ n := by
  unfold assignId
  rw [h]

lemma loadAux_eq_of_fresh (stem : String → String) :
    ∀ (decls : List Node) (store : List (String × Node)) (seen : List String),
      (∀ x, x ∈ store.map Prod.fst ↔ x ∈ seen) →
      (candIdsAux stem decls seen).Nodup →
      (∀ c ∈ candIdsAux stem decls seen, c ∉ seen) →
      loadFromCacheAux stem decls store =
        store ++ List.zipWith (fun n c => (c, { n with id := c })) decls
          (candIdsAux stem decls seen) := by
  intro decls
  induction decls with
  | nil =>
    intro store seen _ _ _
    simp [loadFromCacheAux, candIdsAux]
  | cons n rest ih =>
    intro store seen hmem hnd hfresh
    have hassign : assignId stem (store.map Prod.fst) n = assignId stem seen n :=
      assignId_congr stem _ _ n (contains_eq_of_mem_iff _ _ hmem n.id)
    simp only [loadFromCacheAux, candIdsAux, hassign] at hnd hfresh ⊢
    rw [List.nodup_cons] at hnd
    have hCfresh : assignId stem seen n ∉ seen :=
      hfresh (assignId stem seen n) (List.mem_cons_self _ _)
    have hanyC : store.any (fun p => p.1 == assignId stem seen n) = false := by
      rw [any_key_eq_contains, contains_eq_of_mem_iff _ _ hmem (assignId stem seen n),
        Bool.eq_false_iff]
      intro hcc
      exact hCfresh ((contains_iff_mem _ _).mp hcc)
    have hinsert : dictInsert store (assignId stem seen n)
        ({ n with id := assignId stem seen n }) =
        store ++ [(assignId stem seen n, { n with id := assignId stem seen n })] := by
      unfold dictInsert
      rw [hanyC]
      simp
    rw [hinsert]
    have hmem' : ∀ x, x ∈ (store ++ [(assignId stem seen n,
        { n with id := assignId stem seen n })]).map Prod.fst ↔
        x ∈ assignId stem seen n :: seen := by
      intro x
      simp only [List.map_append, List.mem_append, List.map_cons, List.map_nil,
        List.mem_singleton, List.mem_cons, hmem x]
      tauto
    have hfresh' : ∀ c ∈ candIdsAux stem rest (assignId stem seen n :: seen),
        c ∉ assignId stem seen n :: seen := by
      intro c hc hcc
      cases hcc with
      | head => exact hnd.1 hc
      | tail _ hs => exact hfresh c (List.mem_cons_of_mem _ hc) hs
    have hrec := ih (store ++ [(assignId stem seen n, { n with id := assignId stem seen n })])
      (assignId stem seen n :: seen) hmem' hnd.2 hfresh'
    rw [hrec]
    simp [List.append_assoc]

/-- C9 (amended: node ids in the store are always unique, and every
input declaration is retained — the later occurrence of a collision
disambiguated by the file-stem suffix — provided the assigned ids are
pairwise distinct; when a disambiguated id itself collides again, e.g. a
third occurrence of the same id from the same file stem, the later
declaration silently overwrites the earlier one, see the
counterexample). -/
theorem load_from_cache_disambiguation :
    (∀ (stem : String → String) (decls : List Node),
      ((loadFromCache stem decls).map Prod.fst).Nodup) ∧
    (∀ (stem : String → String) (decls : List Node),
      (candIds stem decls).Nodup →
      loadFromCache stem decls =
        List.zipWith (fun n c => (c, { n with id := c })) decls (candIds stem decls)) := by
  constructor
  · intro stem decls
    exact loadAux_nodup stem decls [] (by simp)
  · intro stem decls hnd
    have h := loadAux_eq_of_fresh stem decls [] [] (by simp) hnd (by simp)
    simpa [loadFromCache, candIds] using h

/-- C9 witness: two declarations colliding on id `foo` from the file
stem `File` are stored as `foo` and `foo@File`, both retained. -/
theorem load_from_cache_disambiguation_witness :
    (candIds stemFn [mkNode "foo", { mkNode "foo" with name := "foo2" }]).Nodup ∧
    loadFromCache stemFn [mkNode "foo", { mkNode "foo" with name := "foo2" }] =
      List.zipWith (fun n c => (c, { n with id := c }))
        [mkNode "foo", { mkNode "foo" with name := "foo2" }]
        (candIds stemFn [mkNode "foo", { mkNode "foo" with name := "foo2" }]) ∧
    (loadFromCache stemFn [mkNode "foo", { mkNode "foo" with name := "foo2" }]).map
      Prod.fst = ["foo", "foo@File"] :=
  ⟨by decide,
    load_from_cache_disambiguation.2 stemFn
      [mkNode "foo", { mkNode "foo" with name := "foo2" }] (by decide),
    by decide⟩

/-- C9 counterexample: three declarations sharing id `foo` and file stem
`File` produce only two stored entries — the third disambiguates to
`foo@File`, which already exists, and silently overwrites the second
(the surviving entry carries the third declaration's name). -/
theorem load_from_cache_drop_counterexample :
    tripleDecls.length = 3 ∧
    (loadFromCache stemFn tripleDecls).length = 2 ∧
    ((loadFromCache stemFn tripleDecls).lookup "foo@File").map (fun n => n.name) =
      some "foo3" :=
  ⟨by decide, by decide, by decide⟩

/-- C7 (spec-modelled): when the overlay file already contains canvas
data, the legacy-canvas migration is skipped entirely — the overlay is
kept exactly as parsed, the constructed store does not depend on the
legacy file at all (so no legacy value can appear in it), and
`get_canvas` returns the visibility, positions and viewport of the
existing overlay. -/
theorem migration_skipped_when_overlay_has_canvas (skn ske : List String) (ov : Overlay)
    (legacy : Option LegacyCanvas) (h : hasCanvasData ov = true) :
    (mkUnifiedStorage skn ske (some ov) legacy).overlay = ov ∧
    mkUnifiedStorage skn ske (some ov) legacy = mkUnifiedStorage skn ske (some ov) none ∧
    getCanvas (mkUnifiedStorage skn ske (some ov) legacy) =
      { visibleNodes := (ov.nodes.filter (fun p => p.2.visible == some true)).map Prod.fst
        positions := ov.canvas.positions
        viewport := ov.canvas.viewport.getD defaultViewport } := by
  have hov : migrateLegacy ov legacy = ov := by
    simp [migrateLegacy, h]
  have hov2 : migrateLegacy ov none = ov := by
    unfold migrateLegacy
    cases hasCanvasData ov <;> simp
  refine ⟨?_, ?_, ?_⟩
  · simp [mkUnifiedStorage, hov]
  · simp [mkUnifiedStorage, hov, hov2]
  · simp [mkUnifiedStorage, getCanvas, hov]

/-- C7 witness: the already-migrated fixture of
`test_migrate_already_migrated` — the overlay with canvas data wins,
the legacy file contributes nothing, and `get_canvas` returns the
overlay's node, position and viewport. -/
theorem migration_skipped_witness :
    hasCanvasData overlayWithCanvas = true ∧
    ((mkUnifiedStorage ["Module.theorem1", "Module.theorem2"] [] (some overlayWithCanvas)
        (some legacyCanvasFixture)).overlay = overlayWithCanvas ∧
      mkUnifiedStorage ["Module.theorem1", "Module.theorem2"] [] (some overlayWithCanvas)
          (some legacyCanvasFixture) =
        mkUnifiedStorage ["Module.theorem1", "Module.theorem2"] [] (some overlayWithCanvas)
          none ∧
      getCanvas (mkUnifiedStorage ["Module.theorem1", "Module.theorem2"] []
          (some overlayWithCanvas) (some legacyCanvasFixture)) =
        { visibleNodes := (overlayWithCanvas.nodes.filter
            (fun p => p.2.visible == some true)).map Prod.fst
          positions := overlayWithCanvas.canvas.positions
          viewport := overlayWithCanvas.canvas.viewport.getD defaultViewport }) ∧
    (getCanvas (mkUnifiedStorage ["Module.theorem1", "Module.theorem2"] []
        (some overlayWithCanvas) (some legacyCanvasFixture))).visibleNodes =
      ["Module.theorem1"] ∧
    ((getCanvas (mkUnifiedStorage ["Module.theorem1", "Module.theorem2"] []
        (some overlayWithCanvas) (some legacyCanvasFixture))).positions.lookup
      "Module.theorem1" = some { x := 100, y := 200, z := 300 }) ∧
    ((getCanvas (mkUnifiedStorage ["Module.theorem1", "Module.theorem2"] []
        (some overlayWithCanvas) (some legacyCanvasFixture))).positions.lookup
      "Module.theorem2" = none) :=
  ⟨by decide,
    migration_skipped_when_overlay_has_canvas ["Module.theorem1", "Module.theorem2"] []
      overlayWithCanvas (some legacyCanvasFixture) (by decide),
    by decide, by decide, by decide⟩

lemma lookup_eraseEdgeEntry : ∀ (edges : List (String × EdgeOverlay)) (id : String),
    (eraseEdgeEntry edges id).lookup id = none := by
  intro edges id
  unfold eraseEdgeEntry
  induction edges with
  | nil => rfl
  | cons p rest ih =>
    simp only [List.filter_cons]
    by_cases hp : p.1 == id
    · simp only [hp, Bool.not_true]
      simp only [Bool.false_eq_true, if_false]
      exact ih
    · have hp' : (p.1 == id) = false := Bool.eq_false_iff.mpr hp
      simp only [hp', Bool.not_false, if_true]
      have hid : (id == p.1) = false := by
        rw [beq_comm_str]
        exact hp'
      simp only [List.lookup, hid]
      exact ih

/-- C8 (spec-modelled): `delete_edge` succeeds only for user-authored
edges, removing the stored entry entirely; for a Lean-sourced
(non-user) edge it fails with an `InvalidOperation` error, and no call
of `delete_edge` ever alters the structural skeleton — on failure the
state is unchanged, so the edge remains in the graph (with at most its
meta overlay cleared). -/
theorem delete_edge_user_only (s : UnifiedStorage) (id : String) :
    (isUserEdge s id = true → ∃ s', deleteEdge s id = Except.ok s' ∧
      s'.overlay.edges.lookup id = none ∧
      s'.skeletonNodeIds = s.skeletonNodeIds ∧ s'.skeletonEdgeIds = s.skeletonEdgeIds) ∧
    (isUserEdge s id = false →
      deleteEdge s id = Except.error "InvalidOperation: structural edges cannot be deleted") := by
  constructor
  · intro h
    refine ⟨{ s with overlay := { s.overlay with edges := eraseEdgeEntry s.overlay.edges id } },
      ?_, lookup_eraseEdgeEntry s.overlay.edges id, rfl, rfl⟩
    simp [deleteEdge, h]
  · intro h
    simp [deleteEdge, h]

/-- C8 witness: in the concrete store, deleting the user edge `U->V`
succeeds and removes its entry, while deleting the structural edge
`A->B` fails with `InvalidOperation`. -/
theorem delete_edge_user_only_witness :
    (isUserEdge storageFixture "U->V" = true ∧
      ∃ s', deleteEdge storageFixture "U->V" = Except.ok s' ∧
        s'.overlay.edges.lookup "U->V" = none ∧
        s'.skeletonNodeIds = storageFixture.skeletonNodeIds ∧
        s'.skeletonEdgeIds = storageFixture.skeletonEdgeIds) ∧
    (isUserEdge storageFixture "A->B" = false ∧
      deleteEdge storageFixture "A->B" =
        Except.error "InvalidOperation: structural edges cannot be deleted") :=
  ⟨⟨by decide, (delete_edge_user_only storageFixture "U->V").1 (by decide)⟩,
    ⟨by decide, (delete_edge_user_only storageFixture "A->B").2 (by decide)⟩⟩

end Astrolabe
